import Mathlib

/-!
Verification development for the BMT poker bot's hand engine
(`src/game.py` and the evaluation/showdown/AFK parts of `src/main.py`).

Modelling conventions:
* Python `dict` player maps preserve insertion order; we model `Table.players`
  as a `List Player` in that order, with the dict-key invariant (distinct
  `user_id`s) stated as a `Nodup` hypothesis where a theorem needs it.
* Card codes such as `"AH"` are modelled structurally as a rank (2..14, the
  value `parse_card` assigns) and a suit (0..3 for C, D, H, S); `parse_card`'s
  string decoding is the identity on this structured form.
* `deck.pop()` in Python removes the list's last element; our `deck : List Card`
  keeps the draw end at the head, so popping is pattern matching on the head.
* Python ints are modelled as `Int` (no truncation anywhere).
* Operations that would raise in Python (`KeyError` on a missing user id,
  `IndexError` on an exhausted deck) are modelled as the identity / `Option`
  failure; the claims only concern non-raising runs.
* Float timestamps feed only subtractions and `≥` comparisons against the AFK
  thresholds; we model times as `Int`.
-/

/-- A playing card: `rank ∈ 2..14` (as produced by `parse_card` via
`CARD_RANKS`), `suit ∈ 0..3` standing for C, D, H, S. -/
structure Card where
  rank : Int
  suit : Nat
deriving DecidableEq

/-- The hand stages of `game.py`'s `Stage` enum. -/
inductive Stage where
  | WAITING_FOR_PLAYERS
  | PREFLOP
  | FLOP
  | TURN
  | RIVER
  | SHOWDOWN
deriving DecidableEq

/-- `game.py`'s `Player` dataclass (display-only fields `name` and
`avatar_file_id` omitted). -/
structure Player where
  user_id : Int
  chips : Int := 1000
  current_bet : Int := 0
  folded : Bool := false
  hole_cards : List Card := []
  last_action_time : Option Int := none
  afk_warned : Bool := false
deriving DecidableEq

/-- `game.py`'s `Table` dataclass, restricted to the fields the betting /
stage / showdown logic reads or writes (chat ids, blind configuration and the
turn-order bookkeeping are omitted: no claim touches them). `players` is the
ordered player dict, `deck` holds the undealt cards with the next card to be
popped at the head. -/
structure Table where
  players : List Player := []
  deck : List Card := []
  community_cards : List Card := []
  pot : Int := 0
  stage : Stage := Stage.WAITING_FOR_PLAYERS
  current_bet : Int := 0
deriving DecidableEq

/-- Update the first player with the given `user_id` (a Python dict holds at
most one entry per key, so this is the dict's in-place mutation of
`self.players[user_id]`). -/
def updateFirst (uid : Int) (f : Player → Player) : List Player → List Player
  | [] => []
  | p :: ps => if p.user_id == uid then f p :: ps else p :: updateFirst uid f ps

/-- `Table.active_players`: all players that have not folded. -/
def Table.active_players (t : Table) : List Player :=
  t.players.filter (fun p => !p.folded)

/-- `Table.fold`: mark the player as folded (a missing id would raise
`KeyError` in Python; modelled as no change). -/
def Table.fold (t : Table) (user_id : Int) : Table :=
  { t with players := updateFirst user_id (fun p => { p with folded := true }) t.players }

/-- `Table.check_or_call`: pay `min(to_call, chips)` into the pot (pure check
when nothing is owed). Returns the amount moved together with the new table. -/
def Table.check_or_call (t : Table) (user_id : Int) : Int × Table :=
  match t.players.find? (fun p => p.user_id == user_id) with
  | none => (0, t)
  | some p =>
    let to_call := t.current_bet - p.current_bet
    if to_call ≤ 0 then
      (0, t)
    else
      let amount := min to_call p.chips
      (amount,
        { t with
          players := updateFirst user_id
            (fun q => { q with chips := q.chips - amount, current_bet := q.current_bet + amount })
            t.players
          pot := t.pot + amount })

/-- `Table.raise_bet`: raise by `amount` on top of the call amount, capped at
the player's remaining chips (all-in); the table's current bet level follows
the highest personal bet. Returns the amount moved and the new table. -/
def Table.raise_bet (t : Table) (user_id : Int) (amount : Int) : Int × Table :=
  match t.players.find? (fun p => p.user_id == user_id) with
  | none => (0, t)
  | some p =>
    let to_call := t.current_bet - p.current_bet
    let total_needed := to_call + amount
    let total := min total_needed p.chips
    let new_personal := p.current_bet + total
    (total,
      { t with
        players := updateFirst user_id
          (fun q => { q with chips := q.chips - total, current_bet := q.current_bet + total })
          t.players
        pot := t.pot + total
        current_bet := if new_personal > t.current_bet then new_personal else t.current_bet })

/-- `Table.everyone_matched_or_folded`: the current betting round is complete. -/
def Table.everyone_matched_or_folded (t : Table) : Bool :=
  let active := t.players.filter (fun p => !p.folded)
  if active.length ≤ 1 then
    true
  else
    let betting_players := active.filter (fun p => p.chips > 0)
    if betting_players.isEmpty then
      true
    else
      ((betting_players.map (fun p => p.current_bet)).eraseDups).length == 1

/-- Reset every player's per-round bet to 0 (the loop at the end of each
`deal_*` method). -/
def resetBets (ps : List Player) : List Player :=
  ps.map (fun p => { p with current_bet := 0 })

/-- `Table.deal_flop`: burn one card, reveal three, reset bets; `none` models
Python's `IndexError` on an exhausted deck. -/
def Table.deal_flop (t : Table) : Option Table :=
  match t.deck with
  | _burn :: c1 :: c2 :: c3 :: rest =>
    some { t with
      deck := rest
      community_cards := t.community_cards ++ [c1, c2, c3]
      stage := Stage.FLOP
      current_bet := 0
      players := resetBets t.players }
  | _ => none

/-- `Table.deal_turn`: burn one card, reveal one, reset bets. -/
def Table.deal_turn (t : Table) : Option Table :=
  match t.deck with
  | _burn :: c :: rest =>
    some { t with
      deck := rest
      community_cards := t.community_cards ++ [c]
      stage := Stage.TURN
      current_bet := 0
      players := resetBets t.players }
  | _ => none

/-- `Table.deal_river`: burn one card, reveal one, reset bets. -/
def Table.deal_river (t : Table) : Option Table :=
  match t.deck with
  | _burn :: c :: rest =>
    some { t with
      deck := rest
      community_cards := t.community_cards ++ [c]
      stage := Stage.RIVER
      current_bet := 0
      players := resetBets t.players }
  | _ => none

/-- `Table.advance_stage_if_needed`: advance to the next stage once the
betting round is done; with exactly one non-folded player left, jump straight
to SHOWDOWN. -/
def Table.advance_stage_if_needed (t : Table) : Option Table :=
  if !t.everyone_matched_or_folded then
    some t
  else
    let active := t.players.filter (fun p => !p.folded)
    if active.length == 1 then
      some { t with stage := Stage.SHOWDOWN }
    else
      match t.stage with
      | Stage.PREFLOP => t.deal_flop
      | Stage.FLOP => t.deal_turn
      | Stage.TURN => t.deal_river
      | Stage.RIVER => some { t with stage := Stage.SHOWDOWN }
      | _ => some t

/-!
## Hand evaluation (`main.py`)

Python scores a 5-card hand as a pair `(category, key)` where `key` is a tuple
of ranks; pairs are compared with Python's tuple ordering. We encode the pair
as the flat list `category :: key`: since every comparison first decides on the
category, list lexicographic order coincides with Python's pair order.
-/

/-- Python's tuple `<` on integer tuples: elementwise, first difference
decides, and a strict prefix is smaller. -/
def listLt : List Int → List Int → Bool
  | [], [] => false
  | [], _ :: _ => true
  | _ :: _, [] => false
  | a :: as, b :: bs => a < b || (a == b && listLt as bs)

/-- `itertools.combinations l n`: all length-`n` subsequences of `l`, in the
order itertools emits them. -/
def combinations : Nat → List α → List (List α)
  | 0, _ => [[]]
  | _ + 1, [] => []
  | n + 1, x :: xs => (combinations n xs).map (x :: ·) ++ combinations (n + 1) xs

/-- The insertion step of a stable descending sort: `x` goes in front of the
first element it is not strictly below. -/
def insertDesc (lt : α → α → Bool) (x : α) : List α → List α
  | [] => [x]
  | y :: ys => if lt x y then y :: insertDesc lt x ys else x :: y :: ys

/-- Stable descending sort (the semantics of Python's stable
`list.sort(key=…, reverse=True)`): ties keep their original relative order. -/
def sortDesc (lt : α → α → Bool) : List α → List α
  | [] => []
  | x :: xs => insertDesc lt x (sortDesc lt xs)

/-- The first element of a list attaining the maximum under `lt` (the head of
the stable descending sort, see `head_sortDesc`). -/
def firstMax (lt : α → α → Bool) : List α → Option α
  | [] => none
  | x :: xs =>
    match firstMax lt xs with
    | none => some x
    | some y => if lt x y then some y else some x

/-- `main.py`'s `detect_straight`, on a descending list of distinct ranks:
five consecutive ranks give the high card, the wheel A-2-3-4-5 gives 5.
(Python tests `ranks[0] - ranks[-1] == 4`, written here as
`head = last + 4`, and `len(set(ranks)) == 5`; the set equality with
`{14,5,4,3,2}` is mutual containment.) -/
def detect_straight (ranks : List Int) : Option Int :=
  if ranks.length < 5 then
    none
  else if ranks.headD 0 == ranks.getLastD 0 + 4 && ranks.eraseDups.length == 5 then
    some (ranks.headD 0)
  else if ranks.all (fun r => [(14:Int), 5, 4, 3, 2].contains r) &&
      [(14:Int), 5, 4, 3, 2].all (fun r => ranks.contains r) then
    some 5
  else
    none

/-- Descending comparison key used for `ranks_by_count`: Python sorts the
`(rank, count)` items by `(count, rank)` descending. This is the strict-less
test on that key. -/
def countRankLt (a b : Int × Nat) : Bool :=
  a.2 < b.2 || (a.2 == b.2 && a.1 < b.1)

/-- The category/key cascade of `main.py`'s `evaluate_5card_hand`, taking the
precomputed per-hand data (factored out of `evaluate_5card_hand` so each
branch can be analysed in isolation). Returns `category :: key`. -/
def hand_category_key (is_flush : Bool) (straight_high : Option Int)
    (ranks ranks_sorted : List Int) (ranks_by_count : List (Int × Nat))
    (counts : List Nat) : List Int :=
  let is_straight := straight_high.isSome
  let sh := straight_high.getD 0
  if (is_straight && is_flush && sh == 14 && decide ((ranks_sorted.getLastD 0) ≥ 10) : Bool) then
    [9, 9]
  else if (is_straight && is_flush : Bool) then
    [8, sh]
  else if counts.headD 0 == 4 then
    let four_rank := (ranks_by_count.headD (0, 0)).1
    let kicker := ((ranks.filter (fun r => !(r == four_rank))).max?).getD 0
    [7, four_rank, kicker]
  else if (counts.headD 0 == 3 && decide (counts.getD 1 0 ≥ 2) : Bool) then
    let three_rank := (ranks_by_count.headD (0, 0)).1
    let pair_rank := (ranks_by_count.getD 1 (0, 0)).1
    [6, three_rank, pair_rank]
  else if is_flush then
    5 :: ranks_sorted
  else if is_straight then
    [4, sh]
  else if counts.headD 0 == 3 then
    let three_rank := (ranks_by_count.headD (0, 0)).1
    let kickers := sortDesc (fun a b : Int => decide (a < b)) (ranks.filter (fun r => !(r == three_rank)))
    3 :: three_rank :: kickers.take 2
  else if (counts.headD 0 == 2 && counts.getD 1 0 == 2 : Bool) then
    let pair1 := (ranks_by_count.headD (0, 0)).1
    let pair2 := (ranks_by_count.getD 1 (0, 0)).1
    let kicker := ((ranks.filter (fun r => !(r == pair1) && !(r == pair2))).max?).getD 0
    [2, max pair1 pair2, min pair1 pair2, kicker]
  else if counts.headD 0 == 2 then
    let pair_rank := (ranks_by_count.headD (0, 0)).1
    let kickers := sortDesc (fun a b : Int => decide (a < b)) (ranks.filter (fun r => !(r == pair_rank)))
    1 :: pair_rank :: kickers.take 3
  else
    0 :: ranks_sorted

/-- `main.py`'s `evaluate_5card_hand`, returning the comparable score
`category :: key` (the human-readable description and the kicker `max` of an
empty list — reachable only off the 52-card domain — are omitted / defaulted). -/
def evaluate_5card_hand (cards : List Card) : List Int :=
  let ranks := cards.map (fun c => c.rank)
  let ranks_sorted := sortDesc (fun a b : Int => decide (a < b)) ranks
  let unique_ranks_desc := sortDesc (fun a b : Int => decide (a < b)) ranks.eraseDups
  let is_flush := ((cards.map (fun c => c.suit)).eraseDups).length == 1
  let straight_high := detect_straight unique_ranks_desc
  let ranks_by_count :=
    sortDesc countRankLt (ranks.eraseDups.map (fun r => (r, ranks.count r)))
  let counts := sortDesc (fun a b : Nat => decide (a < b)) (ranks_by_count.map (fun x => x.2))
  hand_category_key is_flush straight_high ranks ranks_sorted ranks_by_count counts

/-- `main.py`'s `evaluate_best_hand`: the best score over all 5-card
combinations of `board ++ hole`, starting from the sentinel
`(best_cat, best_key) = (-1, ())`, i.e. `[-1]`. -/
def evaluate_best_hand (board : List Card) (hole : List Card) : List Int :=
  let all_cards := board ++ hole
  (combinations 5 all_cards).foldl
    (fun best combo =>
      if listLt best (evaluate_5card_hand combo) then evaluate_5card_hand combo else best)
    [-1]

/-!
## Showdown resolution (`handle_showdown_and_build_text` in `main.py`)
-/

/-- The score the showdown loop assigns to an active player: the sentinel
`(-1, ())`, i.e. `[-1]`, without hole cards or with an incomplete board,
otherwise `evaluate_best_hand`. -/
def playerScore (board : List Card) (p : Player) : List Int :=
  if p.hole_cards.isEmpty || board.length < 5 then [-1]
  else evaluate_best_hand board p.hole_cards

/-- Strict comparison of two players by their showdown score (the sort key
`(x[0], x[1])` of the resolver). -/
def playerLt (board : List Card) (p q : Player) : Bool :=
  listLt (playerScore board p) (playerScore board q)

/-- The state-changing core of `main.py`'s `handle_showdown_and_build_text`:
sort the non-folded players by score descending (stable), give the whole pot
to the first one, and report a hand result per player (winner first with the
pot amount, then every other player with 0). The pot field is **not** cleared
here — `reset_for_new_hand` clears it when the next hand starts. Returns the
new table and the `record_hand_result` calls as `(user_id, chips_won, won)`
triples; with no active player nothing changes and nothing is recorded. -/
def handle_showdown (t : Table) : Table × List (Int × Int × Bool) :=
  let active := t.players.filter (fun p => !p.folded)
  match (sortDesc (playerLt t.community_cards) active).head? with
  | none => (t, [])
  | some winner =>
    ({ t with
        players := updateFirst winner.user_id
          (fun p => { p with chips := p.chips + t.pot }) t.players },
     (winner.user_id, t.pot, true) ::
       (t.players.filter (fun p => !(p.user_id == winner.user_id))).map
         (fun p => (p.user_id, (0 : Int), false)))

/-!
## AFK watchdog (`afk_watcher_job` in `main.py`), restricted to one table
-/

/-- One player's treatment in a watchdog sweep at time `now`: force-fold after
300s of inactivity, mark as warned after 120s. Returns the updated player and
whether a forced fold happened. -/
def afkStepPlayer (now : Int) (p : Player) : Player × Bool :=
  if p.folded then
    (p, false)
  else
    match p.last_action_time with
    | none => (p, false)
    | some last =>
      if now - last ≥ 300 then
        ({ p with folded := true }, true)
      else if now - last ≥ 120 && !p.afk_warned then
        ({ p with afk_warned := true }, false)
      else
        (p, false)

/-- The players of a table after the fold/warn pass of one watchdog sweep. -/
def afkPlayers (now : Int) (t : Table) : List Player :=
  (t.players.map (afkStepPlayer now)).map (fun x => x.1)

/-- Whether the sweep force-folded at least one player (`changed`). -/
def afkChanged (now : Int) (t : Table) : Bool :=
  (t.players.map (afkStepPlayer now)).any (fun x => x.2)

/-- The watchdog sweep over a single table: fold/warn each player, then — if
at least one fold happened — either award the pot to a sole remaining active
player (stage to SHOWDOWN, pot to 0, a result row per player) or run the
normal stage-advance logic. `none` models only the `IndexError` an exhausted
deck would raise inside `advance_stage_if_needed`. -/
def afk_sweep_table (now : Int) (t : Table) : Option (Table × List (Int × Int × Bool)) :=
  let players' := afkPlayers now t
  let t1 := { t with players := players' }
  if !afkChanged now t then
    some (t1, [])
  else
    match players'.filter (fun p => !p.folded) with
    | [winner] =>
      let pot_amount := t1.pot
      some
        ({ t1 with
            players := updateFirst winner.user_id
              (fun p => { p with chips := p.chips + pot_amount }) players'
            stage := Stage.SHOWDOWN
            pot := 0 },
         (winner.user_id, pot_amount, true) ::
           (players'.filter (fun p => !(p.user_id == winner.user_id))).map
             (fun p => (p.user_id, (0 : Int), false)))
    | _ => t1.advance_stage_if_needed.map (fun t2 => (t2, []))

/-!
## Action sequences (for the chip-conservation claim)
-/

/-- A betting action inside a hand. -/
inductive HandAction where
  | fold (uid : Int)
  | check_or_call (uid : Int)
  | raise_bet (uid : Int) (amount : Int)

/-- Apply one action to the table, discarding the returned amount. -/
def applyAction (t : Table) : HandAction → Table
  | HandAction.fold uid => t.fold uid
  | HandAction.check_or_call uid => (t.check_or_call uid).2
  | HandAction.raise_bet uid amount => (t.raise_bet uid amount).2

/-- Apply a sequence of actions left to right. -/
def applyActions (t : Table) (acts : List HandAction) : Table :=
  acts.foldl applyAction t

/-- The conserved quantity of §8: the pot plus every chip stack. -/
def potPlusChips (t : Table) : Int :=
  t.pot + (t.players.map (fun p => p.chips)).sum

/-!
## Order lemmas for the score comparison
-/

/-- `listLt` is irreflexive. -/
theorem listLt_irrefl : ∀ l : List Int, listLt l l = false := by
  intro l
  induction l with
  | nil => rfl
  | cons a as ih => simp [listLt, ih]

/-- `listLt` is transitive. -/
theorem listLt_trans : ∀ a b c : List Int,
    listLt a b = true → listLt b c = true → listLt a c = true := by
  intro a
  induction a with
  | nil =>
    intro b c h1 h2
    cases b with
    | nil => simp [listLt] at h1
    | cons y bs =>
      cases c with
      | nil => simp [listLt] at h2
      | cons z cs => simp [listLt]
  | cons x as ih =>
    intro b c h1 h2
    cases b with
    | nil => simp [listLt] at h1
    | cons y bs =>
      cases c with
      | nil => simp [listLt] at h2
      | cons z cs =>
        simp only [listLt, Bool.or_eq_true, decide_eq_true_eq, Bool.and_eq_true,
          beq_iff_eq] at h1 h2 ⊢
        rcases h1 with h1 | ⟨hxy, h1t⟩
        · rcases h2 with h2 | ⟨hyz, _⟩
          · exact Or.inl (lt_trans h1 h2)
          · exact Or.inl (hyz ▸ h1)
        · rcases h2 with h2 | ⟨hyz, h2t⟩
          · exact Or.inl (hxy ▸ h2)
          · exact Or.inr ⟨hxy.trans hyz, ih bs cs h1t h2t⟩

/-- `listLt` is trichotomous. -/
theorem listLt_trichot : ∀ a b : List Int,
    listLt a b = true ∨ listLt b a = true ∨ a = b := by
  intro a
  induction a with
  | nil =>
    intro b
    cases b with
    | nil => right; right; rfl
    | cons y bs => left; simp [listLt]
  | cons x as ih =>
    intro b
    cases b with
    | nil => right; left; simp [listLt]
    | cons y bs =>
      rcases lt_trichotomy x y with h | h | h
      · left; simp [listLt, h]
      · subst h
        rcases ih bs with h' | h' | h'
        · left; simp [listLt, h']
        · right; left; simp [listLt, h']
        · right; right; rw [h']
      · right; left; simp [listLt, h]

/-!
## The head of a stable descending sort
-/

/-- The head of the stable descending sort is the first maximum. -/
theorem head_sortDesc {α : Type} (lt : α → α → Bool) :
    ∀ l : List α, (sortDesc lt l).head? = firstMax lt l := by
  intro l
  induction l with
  | nil => rfl
  | cons x xs ih =>
    show (insertDesc lt x (sortDesc lt xs)).head? = firstMax lt (x :: xs)
    cases h : sortDesc lt xs with
    | nil =>
      rw [h] at ih
      simp [insertDesc, firstMax, ← ih]
    | cons y ys =>
      rw [h] at ih
      simp only [firstMax, ← ih, List.head?_cons]
      by_cases hxy : lt x y = true
      · simp [insertDesc, hxy]
      · simp [insertDesc, hxy]

/-- A nonempty list has a first maximum. -/
theorem firstMax_isSome {α : Type} (lt : α → α → Bool) (x : α) (xs : List α) :
    ∃ w, firstMax lt (x :: xs) = some w := by
  cases h : firstMax lt xs with
  | none => exact ⟨x, by simp [firstMax, h]⟩
  | some y =>
    by_cases hxy : lt x y = true
    · exact ⟨y, by simp [firstMax, h, hxy]⟩
    · exact ⟨x, by simp [firstMax, h, hxy]⟩

/-- A list with a first maximum is nonempty. -/
theorem firstMax_eq_none {α : Type} (lt : α → α → Bool) :
    ∀ l : List α, firstMax lt l = none → l = [] := by
  intro l h
  cases l with
  | nil => rfl
  | cons x xs =>
    rcases firstMax_isSome lt x xs with ⟨w, hw⟩
    rw [hw] at h
    cases h

/-- Specification of `firstMax` for a key-based comparison whose key order is
transitive and trichotomous: the result splits the list into the strictly
smaller prefix before the winner and a suffix the winner is not below. -/
theorem firstMax_decomp {α K : Type} (key : α → K) (lt : K → K → Bool)
    (htr : ∀ a b c, lt a b = true → lt b c = true → lt a c = true)
    (htch : ∀ a b, lt a b = true ∨ lt b a = true ∨ a = b) :
    ∀ (l : List α) (w : α),
      firstMax (fun p q => lt (key p) (key q)) l = some w →
      ∃ l1 l2, l = l1 ++ w :: l2 ∧ (∀ z ∈ l1, lt (key z) (key w) = true) ∧
        ∀ z ∈ l2, lt (key w) (key z) = false := by
  intro l
  induction l with
  | nil => intro w h; simp [firstMax] at h
  | cons x xs ih =>
    intro w h
    cases hx : firstMax (fun p q => lt (key p) (key q)) xs with
    | none =>
      have hxs := firstMax_eq_none _ xs hx
      subst hxs
      simp [firstMax] at h
      subst h
      exact ⟨[], [], rfl, by simp, by simp⟩
    | some y =>
      simp only [firstMax, hx] at h
      rcases ih y hx with ⟨l1, l2, hdec, hl1, hl2⟩
      by_cases hxy : lt (key x) (key y) = true
      · rw [if_pos hxy] at h
        have hyw : y = w := by injection h
        subst hyw
        refine ⟨x :: l1, l2, by simp [hdec], ?_, hl2⟩
        intro z hz
        rcases List.mem_cons.mp hz with hz | hz
        · exact hz ▸ hxy
        · exact hl1 z hz
      · rw [if_neg hxy] at h
        have hxw : x = w := by injection h
        subst hxw
        refine ⟨[], xs, rfl, by simp, ?_⟩
        intro z hz
        rw [hdec] at hz
        rcases List.mem_append.mp hz with hz | hz
        · by_contra hc
          rw [Bool.not_eq_false] at hc
          exact hxy (htr _ _ _ hc (hl1 z hz))
        · rcases List.mem_cons.mp hz with hz | hz
          · subst hz
            exact Bool.eq_false_iff.mpr hxy
          · by_contra hc
            rw [Bool.not_eq_false] at hc
            rcases htch (key x) (key y) with h' | h' | h'
            · exact hxy h'
            · have hyz := htr _ _ _ h' hc
              rw [hl2 z hz] at hyz
              cases hyz
            · rw [h'] at hc
              rw [hl2 z hz] at hc
              cases hc

/-!
## The fold that keeps the best score so far
-/

/-- Specification of the `best`-keeping fold of `evaluate_best_hand`: the
result is not below any scanned element's key, and is the seed or some
element's key, and is not below the seed. -/
theorem foldBest_spec {α K : Type} (key : α → K) (lt : K → K → Bool)
    (htr : ∀ a b c, lt a b = true → lt b c = true → lt a c = true)
    (htch : ∀ a b, lt a b = true ∨ lt b a = true ∨ a = b)
    (hirr : ∀ a, lt a a = false) :
    ∀ (l : List α) (b : K),
      (∀ c ∈ l,
        lt (l.foldl (fun best x => if lt best (key x) then key x else best) b) (key c) = false) ∧
      (l.foldl (fun best x => if lt best (key x) then key x else best) b = b ∨
        ∃ c ∈ l, key c = l.foldl (fun best x => if lt best (key x) then key x else best) b) ∧
      lt (l.foldl (fun best x => if lt best (key x) then key x else best) b) b = false := by
  intro l
  induction l with
  | nil => intro b; exact ⟨by simp, Or.inl rfl, hirr b⟩
  | cons x l ih =>
    intro b
    simp only [List.foldl_cons]
    obtain ⟨ih1, ih2, ih3⟩ := ih (if lt b (key x) then key x else b)
    by_cases hbx : lt b (key x) = true
    · rw [if_pos hbx] at ih1 ih2 ih3 ⊢
      refine ⟨?_, ?_, ?_⟩
      · intro c hc
        rcases List.mem_cons.mp hc with hc | hc
        · exact hc ▸ ih3
        · exact ih1 c hc
      · rcases ih2 with h | ⟨c, hc, hkc⟩
        · exact Or.inr ⟨x, by simp, h.symm⟩
        · exact Or.inr ⟨c, by simp [hc], hkc⟩
      · by_contra hc
        rw [Bool.not_eq_false] at hc
        have := htr _ _ _ hc hbx
        rw [ih3] at this
        cases this
    · rw [if_neg hbx] at ih1 ih2 ih3 ⊢
      refine ⟨?_, ?_, ih3⟩
      · intro c hc
        rcases List.mem_cons.mp hc with hc | hc
        · subst hc
          by_contra hcc
          rw [Bool.not_eq_false] at hcc
          rcases htch b (key c) with h' | h' | h'
          · exact hbx h'
          · have hrb := htr _ _ _ hcc h'
            rw [ih3] at hrb
            cases hrb
          · rw [← h'] at hcc
            rw [ih3] at hcc
            cases hcc
        · exact ih1 c hc
      · rcases ih2 with h | ⟨c, hc, hkc⟩
        · exact Or.inl h
        · exact Or.inr ⟨c, by simp [hc], hkc⟩

/-!
## Bookkeeping on the ordered player list
-/

/-- `updateFirst` acts on a decomposition whose prefix contains no matching
id: exactly the distinguished entry is rewritten. -/
theorem updateFirst_append (uid : Int) (f : Player → Player) :
    ∀ (l1 : List Player) (w : Player) (l2 : List Player),
      (∀ p ∈ l1, p.user_id ≠ uid) → w.user_id = uid →
      updateFirst uid f (l1 ++ w :: l2) = l1 ++ f w :: l2 := by
  intro l1
  induction l1 with
  | nil =>
    intro w l2 _ hw
    simp [updateFirst, hw]
  | cons p l1 ih =>
    intro w l2 h hw
    have hp : p.user_id ≠ uid := h p (by simp)
    simp only [List.cons_append, updateFirst]
    rw [if_neg (by simpa using hp)]
    exact congrArg (p :: ·) (ih w l2 (fun q hq => h q (by simp [hq])) hw)

/-- Every element of `updateFirst uid f ps` is an old element or the image of
an old element under `f`. -/
theorem mem_updateFirst (uid : Int) (f : Player → Player) :
    ∀ (ps : List Player) (q : Player),
      q ∈ updateFirst uid f ps → q ∈ ps ∨ ∃ p ∈ ps, q = f p := by
  intro ps
  induction ps with
  | nil => intro q h; simp [updateFirst] at h
  | cons p ps ih =>
    intro q h
    by_cases hp : (p.user_id == uid) = true
    · rw [updateFirst, if_pos hp] at h
      rcases List.mem_cons.mp h with h | h
      · exact Or.inr ⟨p, by simp, h⟩
      · exact Or.inl (by simp [h])
    · rw [updateFirst, if_neg hp] at h
      rcases List.mem_cons.mp h with h | h
      · exact Or.inl (by simp [h])
      · rcases ih q h with h' | ⟨r, hr, hq⟩
        · exact Or.inl (by simp [h'])
        · exact Or.inr ⟨r, by simp [hr], hq⟩

/-- `find?` on a cons whose head satisfies the predicate. -/
theorem find?_cons_pos {α : Type} (f : α → Bool) (a : α) (l : List α) (h : f a = true) :
    List.find? f (a :: l) = some a := by
  simp [List.find?, h]

/-- `find?` on a cons whose head fails the predicate. -/
theorem find?_cons_neg {α : Type} (f : α → Bool) (a : α) (l : List α) (h : f a = false) :
    List.find? f (a :: l) = List.find? f l := by
  simp [List.find?, h]

/-- Chip sum after updating the first matching player, when a match exists. -/
theorem sum_chips_updateFirst_found (uid : Int) (f : Player → Player) :
    ∀ (ps : List Player) (q : Player),
      ps.find? (fun p => p.user_id == uid) = some q →
      ((updateFirst uid f ps).map (fun p => p.chips)).sum =
        (ps.map (fun p => p.chips)).sum + (f q).chips - q.chips := by
  intro ps
  induction ps with
  | nil => intro q h; simp at h
  | cons p ps ih =>
    intro q h
    by_cases hp : (p.user_id == uid) = true
    · rw [find?_cons_pos (fun r => r.user_id == uid) p ps hp] at h
      have hpq : p = q := by injection h
      subst hpq
      rw [updateFirst, if_pos hp]
      simp only [List.map_cons, List.sum_cons]
      ring
    · rw [find?_cons_neg (fun r => r.user_id == uid) p ps (by simpa using hp)] at h
      rw [updateFirst, if_neg hp]
      simp only [List.map_cons, List.sum_cons, ih q h]
      ring

/-- Updating with a chips-preserving function preserves the chip sum. -/
theorem sum_chips_updateFirst_preserve (uid : Int) (f : Player → Player)
    (hf : ∀ p, (f p).chips = p.chips) :
    ∀ ps : List Player,
      ((updateFirst uid f ps).map (fun p => p.chips)).sum =
        (ps.map (fun p => p.chips)).sum := by
  intro ps
  induction ps with
  | nil => rfl
  | cons p ps ih =>
    by_cases hp : (p.user_id == uid) = true
    · rw [updateFirst, if_pos hp]
      simp [hf]
    · rw [updateFirst, if_neg hp]
      simp [ih]

/-- With pairwise distinct ids, `find?` on a member's id returns that member. -/
theorem find?_uid_of_nodup :
    ∀ (ps : List Player) (w : Player),
      (ps.map (fun p => p.user_id)).Nodup → w ∈ ps →
      ps.find? (fun p => p.user_id == w.user_id) = some w := by
  intro ps
  induction ps with
  | nil => intro w _ hw; simp at hw
  | cons p ps ih =>
    intro w hnd hw
    simp only [List.map_cons, List.nodup_cons] at hnd
    rcases List.mem_cons.mp hw with hw | hw
    · subst hw
      exact find?_cons_pos (fun r => r.user_id == w.user_id) w ps (by simp)
    · have hne : (p.user_id == w.user_id) = false := by
        simp only [beq_eq_false_iff_ne, ne_eq]
        intro hc
        exact hnd.1 (hc ▸ List.mem_map_of_mem (fun p => p.user_id) hw)
      rw [find?_cons_neg (fun r => r.user_id == w.user_id) p ps hne, ih w hnd.2 hw]

/-- In a list with pairwise distinct ids, no element of the prefix or suffix
around `w` shares `w`'s id. -/
theorem uid_fresh_of_nodup_decomp (l1 : List Player) (w : Player) (l2 : List Player)
    (h : ((l1 ++ w :: l2).map (fun p => p.user_id)).Nodup) :
    (∀ p ∈ l1, p.user_id ≠ w.user_id) ∧ ∀ p ∈ l2, p.user_id ≠ w.user_id := by
  rw [List.map_append, List.map_cons, List.nodup_append] at h
  obtain ⟨_, hcons, hdisj⟩ := h
  rw [List.nodup_cons] at hcons
  constructor
  · intro p hp hc
    exact hdisj (hc ▸ List.mem_map_of_mem (fun p => p.user_id) hp) (List.mem_cons_self _ _)
  · intro p hp hc
    exact hcons.1 (by rw [← hc]; exact List.mem_map_of_mem (fun p => p.user_id) hp)

/-!
## Showdown resolver specification
-/

/-- Core specification of `handle_showdown` when at least one player is still
in and the player ids are distinct: the winner `w` is the first active player
(in dict order) that no other active player strictly beats, every active
player before it scores strictly lower, exactly `w`'s entry gains the whole
pot, the pot field keeps its value, and one result row is produced per player
(winner first). -/
theorem handle_showdown_decomp (t : Table)
    (hne : t.players.filter (fun p => !p.folded) ≠ [])
    (hnd : (t.players.map (fun p => p.user_id)).Nodup) :
    ∃ (w : Player) (a1 a2 l1 l2 : List Player),
      (sortDesc (playerLt t.community_cards)
        (t.players.filter (fun p => !p.folded))).head? = some w ∧
      t.players.filter (fun p => !p.folded) = a1 ++ w :: a2 ∧
      (∀ z ∈ a1,
        listLt (playerScore t.community_cards z) (playerScore t.community_cards w) = true) ∧
      (∀ z ∈ a2,
        listLt (playerScore t.community_cards w) (playerScore t.community_cards z) = false) ∧
      t.players = l1 ++ w :: l2 ∧
      handle_showdown t =
        ({ t with players := l1 ++ { w with chips := w.chips + t.pot } :: l2 },
         (w.user_id, t.pot, true) ::
           (t.players.filter (fun p => !(p.user_id == w.user_id))).map
             (fun p => (p.user_id, (0 : Int), false))) := by
  rcases hact : t.players.filter (fun p => !p.folded) with _ | ⟨x, xs⟩
  · exact absurd hact hne
  · obtain ⟨w, hw⟩ := firstMax_isSome (playerLt t.community_cards) x xs
    have hhead : (sortDesc (playerLt t.community_cards)
        (t.players.filter (fun p => !p.folded))).head? = some w := by
      rw [hact, head_sortDesc, hw]
    obtain ⟨a1, a2, hdec, ha1, ha2⟩ :=
      firstMax_decomp (playerScore t.community_cards) listLt listLt_trans listLt_trichot
        (x :: xs) w hw
    have hwactive : w ∈ t.players.filter (fun p => !p.folded) := by
      rw [hact, hdec]
      exact List.mem_append_right _ (List.mem_cons_self _ _)
    have hwmem : w ∈ t.players := List.mem_of_mem_filter hwactive
    obtain ⟨l1, l2, hpl⟩ := List.append_of_mem hwmem
    have hfresh := uid_fresh_of_nodup_decomp l1 w l2 (hpl ▸ hnd)
    refine ⟨w, a1, a2, l1, l2, hhead, by rw [hact, hdec], ha1, ha2, hpl, ?_⟩
    rw [handle_showdown]
    simp only [hhead]
    rw [hpl, updateFirst_append w.user_id _ l1 w l2
      (fun p hp => hfresh.1 p hp) rfl]

/-!
## AFK sweep specification
-/

/-- The fold/warn pass never changes a player's id. -/
theorem afkStep_uid (now : Int) (p : Player) :
    ((afkStepPlayer now p).1).user_id = p.user_id := by
  unfold afkStepPlayer
  repeat' split
  all_goals rfl

/-- The fold/warn pass never changes a player's chips. -/
theorem afkStep_chips (now : Int) (p : Player) :
    ((afkStepPlayer now p).1).chips = p.chips := by
  unfold afkStepPlayer
  repeat' split
  all_goals rfl

/-- The ids after the fold/warn pass are the original ids, in order. -/
theorem afkPlayers_map_uid (now : Int) (t : Table) :
    ((afkPlayers now t).map (fun p => p.user_id)) = t.players.map (fun p => p.user_id) := by
  unfold afkPlayers
  induction t.players with
  | nil => rfl
  | cons p ps ih => simp [afkStep_uid, ih]

/-- Filtering away one id keeps lists whose members all have other ids. -/
theorem filter_uid_ne_of_fresh (w : Player) :
    ∀ l : List Player, (∀ p ∈ l, p.user_id ≠ w.user_id) →
      l.filter (fun p => !(p.user_id == w.user_id)) = l := by
  intro l h
  apply List.filter_eq_self.mpr
  intro p hp
  simp [h p hp]

/-- Core specification of the watchdog sweep in the default-win case: at
least one player was force-folded and exactly one non-folded player `w`
remains. The sweep awards the pot to `w`'s entry alone, zeroes the pot, sets
the stage to SHOWDOWN, touches neither board nor deck, and reports one result
row per player, the winner's first. -/
theorem afk_sweep_decomp (now : Int) (t : Table) (w : Player)
    (hch : afkChanged now t = true)
    (hone : (afkPlayers now t).filter (fun p => !p.folded) = [w])
    (hnd : (t.players.map (fun p => p.user_id)).Nodup) :
    ∃ l1 l2 : List Player,
      afkPlayers now t = l1 ++ w :: l2 ∧
      (∀ p ∈ l1, p.user_id ≠ w.user_id) ∧ (∀ p ∈ l2, p.user_id ≠ w.user_id) ∧
      afk_sweep_table now t =
        some
          ({ t with
              players := l1 ++ { w with chips := w.chips + t.pot } :: l2
              stage := Stage.SHOWDOWN
              pot := 0 },
           (w.user_id, t.pot, true) :: (l1 ++ l2).map (fun p => (p.user_id, (0 : Int), false))) := by
  have hwmem : w ∈ afkPlayers now t := by
    have : w ∈ (afkPlayers now t).filter (fun p => !p.folded) := by
      rw [hone]; exact List.mem_cons_self _ _
    exact List.mem_of_mem_filter this
  obtain ⟨l1, l2, hpl⟩ := List.append_of_mem hwmem
  have hnd' : ((afkPlayers now t).map (fun p => p.user_id)).Nodup := by
    rw [afkPlayers_map_uid]; exact hnd
  have hfresh := uid_fresh_of_nodup_decomp l1 w l2 (hpl ▸ hnd')
  refine ⟨l1, l2, hpl, hfresh.1, hfresh.2, ?_⟩
  rw [afk_sweep_table]
  simp only [hch, Bool.not_true, if_neg (by simp : ¬((false : Bool) = true)), hone]
  rw [hpl, updateFirst_append w.user_id _ l1 w l2 (fun p hp => hfresh.1 p hp) rfl]
  have hfilter : (l1 ++ w :: l2).filter (fun p => !(p.user_id == w.user_id)) = l1 ++ l2 := by
    rw [List.filter_append, List.filter_cons]
    simp only [beq_self_eq_true, Bool.not_true, if_neg (by simp : ¬((false : Bool) = true))]
    rw [filter_uid_ne_of_fresh w l1 hfresh.1, filter_uid_ne_of_fresh w l2 hfresh.2]
  rw [hfilter]

/-!
## Concrete fixtures for witnesses and counterexamples

Card encoding reminder: suits 0,1,2,3 are C,D,H,S and ranks are 2..14.
-/

/-- A board carrying a royal flush entirely on the table: 10♣ J♣ Q♣ K♣ A♣. -/
def royalBoard : List Card := [⟨10, 0⟩, ⟨11, 0⟩, ⟨12, 0⟩, ⟨13, 0⟩, ⟨14, 0⟩]

/-- Two players whose best hands tie (the board itself is the best hand for
both), with a non-zero pot, at showdown. -/
def tableRoyalTie : Table :=
  { players :=
      [{ user_id := 1, chips := 100, hole_cards := [⟨2, 1⟩, ⟨3, 1⟩] },
       { user_id := 2, chips := 200, hole_cards := [⟨4, 2⟩, ⟨5, 2⟩] }]
    community_cards := royalBoard
    pot := 60
    stage := Stage.SHOWDOWN }

/-- **C1** counterexample: at a showdown with active players, after the
resolver runs, the table's pot is *not* set to 0 — `handle_showdown` never
writes the pot field (only `reset_for_new_hand` does, at the next hand). -/
theorem showdown_pot_not_zeroed_counterexample :
    tableRoyalTie.players.filter (fun p => !p.folded) ≠ [] ∧
    tableRoyalTie.pot = 60 ∧
    (handle_showdown tableRoyalTie).1.pot = 60 ∧
    ¬(handle_showdown tableRoyalTie).1.pot = 0 := by
  refine ⟨by decide, rfl, by decide, by decide⟩

/-- **C1** (amended): at showdown with at least one non-folded player (player
ids pairwise distinct, the dict-key invariant), after the resolver orders the
active players by (category, tiebreak key) descending, the single best-ranked
player's chip stack increases by exactly the pot's value — but the table's
pot field is left unchanged, not set to 0 (it is cleared only by the next
hand's reset). -/
theorem showdown_winner_gains_pot_pot_unchanged (t : Table)
    (hne : t.players.filter (fun p => !p.folded) ≠ [])
    (hnd : (t.players.map (fun p => p.user_id)).Nodup) :
    ∃ (w : Player) (l1 l2 : List Player),
      (sortDesc (playerLt t.community_cards)
        (t.players.filter (fun p => !p.folded))).head? = some w ∧
      t.players = l1 ++ w :: l2 ∧
      (handle_showdown t).1.players = l1 ++ { w with chips := w.chips + t.pot } :: l2 ∧
      (handle_showdown t).1.pot = t.pot := by
  obtain ⟨w, a1, a2, l1, l2, hhead, hdec, ha1, ha2, hpl, heq⟩ :=
    handle_showdown_decomp t hne hnd
  exact ⟨w, l1, l2, hhead, hpl, by rw [heq], by rw [heq]⟩

/-- Witness for the amended C1 at the concrete tie table: player 1 (first in
insertion order) receives the 60-chip pot and the pot field still reads 60. -/
theorem showdown_winner_gains_pot_pot_unchanged_witness :
    tableRoyalTie.players.filter (fun p => !p.folded) ≠ [] ∧
    ∃ (w : Player) (l1 l2 : List Player),
      (sortDesc (playerLt tableRoyalTie.community_cards)
        (tableRoyalTie.players.filter (fun p => !p.folded))).head? = some w ∧
      tableRoyalTie.players = l1 ++ w :: l2 ∧
      (handle_showdown tableRoyalTie).1.players =
        l1 ++ { w with chips := w.chips + tableRoyalTie.pot } :: l2 ∧
      (handle_showdown tableRoyalTie).1.pot = tableRoyalTie.pot :=
  ⟨by decide,
   showdown_winner_gains_pot_pot_unchanged tableRoyalTie (by decide) (by decide)⟩

/-- **C3**: if two or more active players share the equal best
(category, key), the resolver awards the entire pot to exactly one player —
the first, in the table's player-iteration (insertion) order, among those
tied (every active player placed before the winner scores strictly lower,
and the winner carries the tied best score) — and no other player's entry
changes. -/
theorem showdown_tie_first_in_order_wins (t : Table) (p q : Player)
    (hnd : (t.players.map (fun r => r.user_id)).Nodup)
    (hp : p ∈ t.players.filter (fun r => !r.folded))
    (hq : q ∈ t.players.filter (fun r => !r.folded))
    (hpq : p.user_id ≠ q.user_id)
    (hscore : playerScore t.community_cards p = playerScore t.community_cards q)
    (hbest : ∀ z ∈ t.players.filter (fun r => !r.folded),
      listLt (playerScore t.community_cards p) (playerScore t.community_cards z) = false) :
    ∃ (w : Player) (a1 a2 l1 l2 : List Player),
      t.players.filter (fun r => !r.folded) = a1 ++ w :: a2 ∧
      playerScore t.community_cards w = playerScore t.community_cards p ∧
      (∀ z ∈ a1,
        listLt (playerScore t.community_cards z) (playerScore t.community_cards w) = true) ∧
      t.players = l1 ++ w :: l2 ∧
      (handle_showdown t).1.players = l1 ++ { w with chips := w.chips + t.pot } :: l2 := by
  have hne : t.players.filter (fun r => !r.folded) ≠ [] := List.ne_nil_of_mem hp
  obtain ⟨w, a1, a2, l1, l2, hhead, hdec, ha1, ha2, hpl, heq⟩ :=
    handle_showdown_decomp t hne hnd
  have hwact : w ∈ t.players.filter (fun r => !r.folded) := by
    rw [hdec]
    exact List.mem_append_right _ (List.mem_cons_self _ _)
  have hww : playerScore t.community_cards w = playerScore t.community_cards p := by
    rw [hdec] at hp
    rcases List.mem_append.mp hp with hp' | hp'
    · have h1 := ha1 p hp'
      rw [hbest w hwact] at h1
      cases h1
    · rcases List.mem_cons.mp hp' with hp' | hp'
      · rw [hp']
      · rcases listLt_trichot (playerScore t.community_cards w)
          (playerScore t.community_cards p) with h' | h' | h'
        · rw [ha2 p hp'] at h'
          cases h'
        · rw [hbest w hwact] at h'
          cases h'
        · exact h'
  exact ⟨w, a1, a2, l1, l2, hdec, hww, ha1, hpl, by rw [heq]⟩

/-- Witness for C3 at the concrete tie table: both players tie with the
royal flush on the board and player 1, first in insertion order, wins. -/
theorem showdown_tie_first_in_order_wins_witness :
    (tableRoyalTie.players.map (fun r => r.user_id)).Nodup ∧
    ∃ (w : Player) (a1 a2 l1 l2 : List Player),
      tableRoyalTie.players.filter (fun r => !r.folded) = a1 ++ w :: a2 ∧
      playerScore tableRoyalTie.community_cards w =
        playerScore tableRoyalTie.community_cards
          { user_id := 1, chips := 100, hole_cards := [⟨2, 1⟩, ⟨3, 1⟩] } ∧
      (∀ z ∈ a1,
        listLt (playerScore tableRoyalTie.community_cards z)
          (playerScore tableRoyalTie.community_cards w) = true) ∧
      tableRoyalTie.players = l1 ++ w :: l2 ∧
      (handle_showdown tableRoyalTie).1.players =
        l1 ++ { w with chips := w.chips + tableRoyalTie.pot } :: l2 :=
  ⟨by decide,
   showdown_tie_first_in_order_wins tableRoyalTie
     { user_id := 1, chips := 100, hole_cards := [⟨2, 1⟩, ⟨3, 1⟩] }
     { user_id := 2, chips := 200, hole_cards := [⟨4, 2⟩, ⟨5, 2⟩] }
     (by decide) (by decide) (by decide) (by decide) (by decide) (by decide)⟩

/-- **C2**: a watchdog sweep that force-folds at least one player and leaves
exactly one non-folded player `w` awards the pot to that player's entry alone
(chips increase by the pot, even a 0 pot), persists a hand result for every
player at the table (winner's row first), zeroes the pot, and sets the stage
to SHOWDOWN without dealing any further community cards (board and deck are
untouched; the fold/warn pass itself never changes chips). -/
theorem afk_default_win_spec (now : Int) (t : Table) (w : Player)
    (hch : afkChanged now t = true)
    (hone : (afkPlayers now t).filter (fun p => !p.folded) = [w])
    (hnd : (t.players.map (fun p => p.user_id)).Nodup) :
    ∃ (t2 : Table) (results : List (Int × Int × Bool)) (l1 l2 : List Player),
      afk_sweep_table now t = some (t2, results) ∧
      afkPlayers now t = l1 ++ w :: l2 ∧
      t2.players = l1 ++ { w with chips := w.chips + t.pot } :: l2 ∧
      t2.pot = 0 ∧
      t2.stage = Stage.SHOWDOWN ∧
      t2.community_cards = t.community_cards ∧
      t2.deck = t.deck ∧
      results.length = t.players.length ∧
      (∀ p ∈ t.players, ∃ r ∈ results, r.1 = p.user_id) ∧
      ∀ p : Player, ((afkStepPlayer now p).1).chips = p.chips := by
  obtain ⟨l1, l2, hpl, hf1, hf2, heq⟩ := afk_sweep_decomp now t w hch hone hnd
  have hlen : t.players.length = l1.length + 1 + l2.length := by
    have h1 : (afkPlayers now t).length = t.players.length := by
      simp [afkPlayers]
    rw [hpl] at h1
    simp at h1
    omega
  refine ⟨_, _, l1, l2, heq, hpl, rfl, rfl, rfl, rfl, rfl, ?_, ?_, afkStep_chips now⟩
  · simp only [List.length_cons, List.length_map, List.length_append]
    omega
  · intro p hp
    have hp' : (afkStepPlayer now p).1 ∈ afkPlayers now t := by
      exact List.mem_map_of_mem _ (List.mem_map_of_mem _ hp)
    by_cases hcase : ((afkStepPlayer now p).1).user_id = w.user_id
    · refine ⟨(w.user_id, t.pot, true), List.mem_cons_self _ _, ?_⟩
      rw [← hcase, afkStep_uid]
    · have hmem : (afkStepPlayer now p).1 ∈ l1 ++ l2 := by
        rw [hpl] at hp'
        rcases List.mem_append.mp hp' with h' | h'
        · exact List.mem_append_left _ h'
        · rcases List.mem_cons.mp h' with h' | h'
          · exact absurd (congrArg Player.user_id h') hcase
          · exact List.mem_append_right _ h'
      refine ⟨(((afkStepPlayer now p).1).user_id, (0 : Int), false),
        List.mem_cons_of_mem _ (List.mem_map_of_mem _ hmem), ?_⟩
      exact afkStep_uid now p

/-- The AFK fixture: player 1 has been inactive for 1000s (≥ 300), player 2
for 100s; pot 30 at the FLOP. -/
def tableAfk : Table :=
  { players :=
      [{ user_id := 1, chips := 100, last_action_time := some 0 },
       { user_id := 2, chips := 200, last_action_time := some 900 }]
    community_cards := [⟨2, 0⟩, ⟨3, 0⟩, ⟨4, 0⟩]
    pot := 30
    stage := Stage.FLOP }

/-- Witness for C2 at the fixture: the sweep at time 1000 folds player 1 and
player 2 wins the 30-chip pot by default. -/
theorem afk_default_win_spec_witness :
    afkChanged 1000 tableAfk = true ∧
    ∃ (t2 : Table) (results : List (Int × Int × Bool)) (l1 l2 : List Player),
      afk_sweep_table 1000 tableAfk = some (t2, results) ∧
      afkPlayers 1000 tableAfk =
        l1 ++ { user_id := 2, chips := 200, last_action_time := some 900 } :: l2 ∧
      t2.players =
        l1 ++ { user_id := 2, chips := 200 + tableAfk.pot, last_action_time := some 900 } :: l2 ∧
      t2.pot = 0 ∧
      t2.stage = Stage.SHOWDOWN ∧
      t2.community_cards = tableAfk.community_cards ∧
      t2.deck = tableAfk.deck ∧
      results.length = tableAfk.players.length ∧
      (∀ p ∈ tableAfk.players, ∃ r ∈ results, r.1 = p.user_id) ∧
      ∀ p : Player, ((afkStepPlayer 1000 p).1).chips = p.chips :=
  ⟨by decide,
   afk_default_win_spec 1000 tableAfk
     { user_id := 2, chips := 200, last_action_time := some 900 }
     (by decide) (by decide) (by decide)⟩

/-!
## Scenario B (claim C4)
-/

/-- Scenario B: P1 with 50 chips, P2 with 900 chips, no blinds posted. -/
def tableScenarioB : Table :=
  { players := [{ user_id := 1, chips := 50 }, { user_id := 2, chips := 900 }]
    stage := Stage.PREFLOP }

/-- **C4** counterexample: in Scenario B the raise and the call behave as
claimed, but after P2's call the set of active players with chips > 0 is
*not* empty — P2 still holds 850 chips. -/
theorem scenario_b_betting_players_nonempty :
    (tableScenarioB.raise_bet 1 50).1 = 50 ∧
    ((tableScenarioB.raise_bet 1 50).2.check_or_call 2).1 = 50 ∧
    ¬((((tableScenarioB.raise_bet 1 50).2.check_or_call 2).2.players.filter
        (fun p => !p.folded)).filter (fun p => p.chips > 0) = []) := by
  refine ⟨by decide, by decide, by decide⟩

/-- **C4** (amended): in Scenario B, `raiseBet(P1,50)` leaves P1 with 0
chips, pot 50, bet level 50; `checkOrCall(P2)` pays 50 and makes the pot 100;
at that point the active players with chips > 0 are exactly P2 (with 850
chips and a matching bet of 50) — not the empty set — and the
round-completion predicate returns true via its equal-bets branch. -/
theorem scenario_b_amended :
    (tableScenarioB.raise_bet 1 50).1 = 50 ∧
    (tableScenarioB.raise_bet 1 50).2.players.map (fun p => p.chips) = [0, 900] ∧
    (tableScenarioB.raise_bet 1 50).2.pot = 50 ∧
    (tableScenarioB.raise_bet 1 50).2.current_bet = 50 ∧
    ((tableScenarioB.raise_bet 1 50).2.check_or_call 2).1 = 50 ∧
    ((tableScenarioB.raise_bet 1 50).2.check_or_call 2).2.pot = 100 ∧
    ((((tableScenarioB.raise_bet 1 50).2.check_or_call 2).2.players.filter
        (fun p => !p.folded)).filter (fun p => p.chips > 0)) =
      [{ user_id := 2, chips := 850, current_bet := 50 }] ∧
    ((tableScenarioB.raise_bet 1 50).2.check_or_call 2).2.everyone_matched_or_folded = true := by
  refine ⟨by decide, by decide, by decide, by decide, by decide, by decide, by decide, by decide⟩

/-!
## Chip conservation (claim C5)
-/

/-- `find?` decomposes a list at the first hit. -/
theorem find?_decomp {α : Type} (f : α → Bool) :
    ∀ (l : List α) (a : α), l.find? f = some a →
      ∃ l1 l2, l = l1 ++ a :: l2 ∧ (∀ x ∈ l1, f x = false) ∧ f a = true := by
  intro l
  induction l with
  | nil => intro a h; simp at h
  | cons x xs ih =>
    intro a h
    by_cases hx : f x = true
    · rw [find?_cons_pos f x xs hx] at h
      have hxa : x = a := by injection h
      subst hxa
      exact ⟨[], xs, rfl, by simp, hx⟩
    · rw [find?_cons_neg f x xs (by simpa using hx)] at h
      obtain ⟨l1, l2, hdec, hfa, ha⟩ := ih a h
      exact ⟨x :: l1, l2, by simp [hdec], by
        intro z hz
        rcases List.mem_cons.mp hz with hz | hz
        · exact hz ▸ (by simpa using hx)
        · exact hfa z hz, ha⟩

/-- Folding does not change the pot or any chip stack. -/
theorem potPlusChips_fold (t : Table) (uid : Int) :
    potPlusChips (t.fold uid) = potPlusChips t := by
  unfold potPlusChips Table.fold
  simp only
  rw [sum_chips_updateFirst_preserve uid (fun p => { p with folded := true })
    (fun p => rfl) t.players]

/-- A check/call moves chips only between a stack and the pot. -/
theorem potPlusChips_check_or_call (t : Table) (uid : Int) :
    potPlusChips (t.check_or_call uid).2 = potPlusChips t := by
  unfold Table.check_or_call
  cases h : t.players.find? (fun p => p.user_id == uid) with
  | none => rfl
  | some p =>
    simp only
    split
    · rfl
    · unfold potPlusChips
      simp only
      rw [sum_chips_updateFirst_found uid _ t.players p h]
      simp only
      ring

/-- A raise moves chips only between a stack and the pot. -/
theorem potPlusChips_raise_bet (t : Table) (uid : Int) (amount : Int) :
    potPlusChips (t.raise_bet uid amount).2 = potPlusChips t := by
  unfold Table.raise_bet
  cases h : t.players.find? (fun p => p.user_id == uid) with
  | none => rfl
  | some p =>
    unfold potPlusChips
    simp only
    rw [sum_chips_updateFirst_found uid _ t.players p h]
    simp only
    ring

/-- Any single betting action conserves pot + Σ chips. -/
theorem potPlusChips_applyAction (t : Table) (a : HandAction) :
    potPlusChips (applyAction t a) = potPlusChips t := by
  cases a with
  | fold uid => exact potPlusChips_fold t uid
  | check_or_call uid => exact potPlusChips_check_or_call t uid
  | raise_bet uid amount => exact potPlusChips_raise_bet t uid amount

/-- **C5** counterexample: the quantity pot + Σ chips is *not* preserved
across the showdown award — the full pot is added to the winner's stack while
the pot field keeps its value, so the total grows by the pot. -/
theorem conservation_fails_at_showdown_award :
    potPlusChips (handle_showdown tableRoyalTie).1 =
      potPlusChips tableRoyalTie + tableRoyalTie.pot ∧
    ¬potPlusChips (handle_showdown tableRoyalTie).1 = potPlusChips tableRoyalTie := by
  refine ⟨by decide, by decide⟩

/-- **C5** (amended): for any sequence of fold / checkOrCall / raiseBet
actions, pot + Σ chips stays constant. When the pot is awarded, its full
value is added to the winner's stack; the AFK default-win award also zeroes
the pot, preserving pot + Σ chips, but the showdown resolver leaves the pot
field set, so there pot + Σ chips grows by exactly the pot's value (the field
is cleared only by the next hand's reset). -/
theorem chip_conservation_amended :
    (∀ (t : Table) (acts : List HandAction),
      potPlusChips (applyActions t acts) = potPlusChips t) ∧
    (∀ t : Table, t.players.filter (fun p => !p.folded) ≠ [] →
      (t.players.map (fun p => p.user_id)).Nodup →
      ((handle_showdown t).1.players.map (fun p => p.chips)).sum =
        (t.players.map (fun p => p.chips)).sum + t.pot ∧
      (handle_showdown t).1.pot = t.pot ∧
      potPlusChips (handle_showdown t).1 = potPlusChips t + t.pot) ∧
    (∀ (now : Int) (t : Table) (w : Player), afkChanged now t = true →
      (afkPlayers now t).filter (fun p => !p.folded) = [w] →
      (t.players.map (fun p => p.user_id)).Nodup →
      ∃ (t2 : Table) (results : List (Int × Int × Bool)),
        afk_sweep_table now t = some (t2, results) ∧
        potPlusChips t2 = potPlusChips t) := by
  refine ⟨?_, ?_, ?_⟩
  · intro t acts
    induction acts generalizing t with
    | nil => rfl
    | cons a acts ih =>
      rw [applyActions, List.foldl_cons, ← applyActions, ih, potPlusChips_applyAction]
  · intro t hne hnd
    obtain ⟨w, a1, a2, l1, l2, hhead, hdec, ha1, ha2, hpl, heq⟩ :=
      handle_showdown_decomp t hne hnd
    have hsum : ((handle_showdown t).1.players.map (fun p => p.chips)).sum =
        (t.players.map (fun p => p.chips)).sum + t.pot := by
      rw [heq]
      simp only [hpl, List.map_append, List.map_cons, List.sum_append, List.sum_cons]
      ring
    refine ⟨hsum, by rw [heq], ?_⟩
    unfold potPlusChips
    rw [hsum, show (handle_showdown t).1.pot = t.pot by rw [heq]]
    ring
  · intro now t w hch hone hnd
    obtain ⟨l1, l2, hpl, hf1, hf2, heq⟩ := afk_sweep_decomp now t w hch hone hnd
    refine ⟨_, _, heq, ?_⟩
    have hchips : ((afkPlayers now t).map (fun p => p.chips)) =
        t.players.map (fun p => p.chips) := by
      unfold afkPlayers
      induction t.players with
      | nil => rfl
      | cons p ps ih => simp [afkStep_chips, ih]
    unfold potPlusChips
    simp only [List.map_append, List.map_cons, List.sum_append, List.sum_cons]
    have hafk : (l1.map (fun p => p.chips)).sum + (w.chips + (l2.map (fun p => p.chips)).sum) =
        (t.players.map (fun p => p.chips)).sum := by
      rw [← hchips, hpl]
      simp [List.sum_append]
    omega

/-- Witness for the amended C5: a concrete action sequence conserves the
total, and the concrete showdown award at the tie table adds the pot. -/
theorem chip_conservation_amended_witness :
    potPlusChips (applyActions tableScenarioB
      [HandAction.raise_bet 1 50, HandAction.check_or_call 2, HandAction.fold 1]) =
      potPlusChips tableScenarioB ∧
    ((handle_showdown tableRoyalTie).1.players.map (fun p => p.chips)).sum =
      (tableRoyalTie.players.map (fun p => p.chips)).sum + tableRoyalTie.pot :=
  ⟨chip_conservation_amended.1 tableScenarioB
      [HandAction.raise_bet 1 50, HandAction.check_or_call 2, HandAction.fold 1],
   (chip_conservation_amended.2.1 tableRoyalTie (by decide) (by decide)).1⟩

/-!
## Safety of the betting mutators (claim C6)
-/

/-- Safety of `check_or_call` under the table invariants. -/
theorem check_or_call_safe (t : Table) (uid : Int)
    (hchips : ∀ p ∈ t.players, 0 ≤ p.chips)
    (hbets : ∀ p ∈ t.players, p.current_bet ≤ t.current_bet) :
    (∀ p' ∈ (t.check_or_call uid).2.players, 0 ≤ p'.chips) ∧
    ∀ p, t.players.find? (fun r => r.user_id == uid) = some p →
      0 ≤ (t.check_or_call uid).1 ∧ (t.check_or_call uid).1 ≤ p.chips := by
  cases h : t.players.find? (fun r => r.user_id == uid) with
  | none =>
    constructor
    · intro p' hp'
      simp only [Table.check_or_call, h] at hp'
      exact hchips p' hp'
    · intro p hp
      cases hp
  | some p0 =>
    have hmem : p0 ∈ t.players := List.mem_of_find?_eq_some h
    have h0 : 0 ≤ p0.chips := hchips p0 hmem
    have hb : p0.current_bet ≤ t.current_bet := hbets p0 hmem
    obtain ⟨l1, l2, hdec, hfa, hfp⟩ := find?_decomp _ t.players p0 h
    have huid : p0.user_id = uid := by simpa using hfp
    have hfresh : ∀ x ∈ l1, x.user_id ≠ uid := fun x hx => by simpa using hfa x hx
    by_cases hcall : t.current_bet - p0.current_bet ≤ 0
    · constructor
      · intro p' hp'
        simp only [Table.check_or_call, h, if_pos hcall] at hp'
        exact hchips p' hp'
      · intro p hp
        injection hp with hp
        subst hp
        simp only [Table.check_or_call, h, if_pos hcall]
        exact ⟨le_refl 0, h0⟩
    · constructor
      · intro p' hp'
        simp only [Table.check_or_call, h, if_neg hcall] at hp'
        rw [hdec, updateFirst_append uid _ l1 p0 l2 hfresh huid] at hp'
        rcases List.mem_append.mp hp' with hp' | hp'
        · exact hchips p' (hdec ▸ List.mem_append_left _ hp')
        · rcases List.mem_cons.mp hp' with hp' | hp'
          · subst hp'
            simp only
            have : min (t.current_bet - p0.current_bet) p0.chips ≤ p0.chips := min_le_right _ _
            omega
          · exact hchips p' (hdec ▸ List.mem_append_right _ (List.mem_cons_of_mem _ hp'))
      · intro p hp
        injection hp with hp
        subst hp
        simp only [Table.check_or_call, h, if_neg hcall]
        constructor
        · exact le_min (by omega) h0
        · exact min_le_right _ _

/-- Safety of `raise_bet` under the table invariants. -/
theorem raise_bet_safe (t : Table) (uid : Int) (amount : Int)
    (hchips : ∀ p ∈ t.players, 0 ≤ p.chips)
    (hbets : ∀ p ∈ t.players, p.current_bet ≤ t.current_bet)
    (hamt : 0 ≤ amount) :
    (∀ p' ∈ (t.raise_bet uid amount).2.players, 0 ≤ p'.chips) ∧
    ∀ p, t.players.find? (fun r => r.user_id == uid) = some p →
      0 ≤ (t.raise_bet uid amount).1 ∧ (t.raise_bet uid amount).1 ≤ p.chips := by
  cases h : t.players.find? (fun r => r.user_id == uid) with
  | none =>
    constructor
    · intro p' hp'
      simp only [Table.raise_bet, h] at hp'
      exact hchips p' hp'
    · intro p hp
      cases hp
  | some p0 =>
    have hmem : p0 ∈ t.players := List.mem_of_find?_eq_some h
    have h0 : 0 ≤ p0.chips := hchips p0 hmem
    have hb : p0.current_bet ≤ t.current_bet := hbets p0 hmem
    obtain ⟨l1, l2, hdec, hfa, hfp⟩ := find?_decomp _ t.players p0 h
    have huid : p0.user_id = uid := by simpa using hfp
    have hfresh : ∀ x ∈ l1, x.user_id ≠ uid := fun x hx => by simpa using hfa x hx
    constructor
    · intro p' hp'
      simp only [Table.raise_bet, h] at hp'
      rw [hdec, updateFirst_append uid _ l1 p0 l2 hfresh huid] at hp'
      rcases List.mem_append.mp hp' with hp' | hp'
      · exact hchips p' (hdec ▸ List.mem_append_left _ hp')
      · rcases List.mem_cons.mp hp' with hp' | hp'
        · subst hp'
          simp only
          have : min (t.current_bet - p0.current_bet + amount) p0.chips ≤ p0.chips :=
            min_le_right _ _
          omega
        · exact hchips p' (hdec ▸ List.mem_append_right _ (List.mem_cons_of_mem _ hp'))
    · intro p hp
      injection hp with hp
      subst hp
      simp only [Table.raise_bet, h]
      constructor
      · exact le_min (by omega) h0
      · exact min_le_right _ _

/-- **C6**: starting from a state with nonnegative stacks, all personal bets
at most the table's bet level and a nonnegative raise amount, both
`checkOrCall` and `raiseBet` keep every stack ≥ 0, and the amount each
returns (the chips moved into the pot) is between 0 and the acting player's
pre-action chip count. -/
theorem no_negative_stacks (t : Table) (uid amount : Int)
    (hchips : ∀ p ∈ t.players, 0 ≤ p.chips)
    (hbets : ∀ p ∈ t.players, p.current_bet ≤ t.current_bet)
    (hamt : 0 ≤ amount) :
    (∀ p' ∈ (t.check_or_call uid).2.players, 0 ≤ p'.chips) ∧
    (∀ p, t.players.find? (fun r => r.user_id == uid) = some p →
      0 ≤ (t.check_or_call uid).1 ∧ (t.check_or_call uid).1 ≤ p.chips) ∧
    (∀ p' ∈ (t.raise_bet uid amount).2.players, 0 ≤ p'.chips) ∧
    ∀ p, t.players.find? (fun r => r.user_id == uid) = some p →
      0 ≤ (t.raise_bet uid amount).1 ∧ (t.raise_bet uid amount).1 ≤ p.chips :=
  ⟨(check_or_call_safe t uid hchips hbets).1,
   (check_or_call_safe t uid hchips hbets).2,
   (raise_bet_safe t uid amount hchips hbets hamt).1,
   (raise_bet_safe t uid amount hchips hbets hamt).2⟩

/-- Witness for C6 at Scenario B's table: raising 60 with 50 chips moves only
the 50 available chips and leaves no stack negative. -/
theorem no_negative_stacks_witness :
    (∀ p' ∈ (tableScenarioB.check_or_call 1).2.players, 0 ≤ p'.chips) ∧
    (∀ p, tableScenarioB.players.find? (fun r => r.user_id == 1) = some p →
      0 ≤ (tableScenarioB.check_or_call 1).1 ∧ (tableScenarioB.check_or_call 1).1 ≤ p.chips) ∧
    (∀ p' ∈ (tableScenarioB.raise_bet 1 60).2.players, 0 ≤ p'.chips) ∧
    ∀ p, tableScenarioB.players.find? (fun r => r.user_id == 1) = some p →
      0 ≤ (tableScenarioB.raise_bet 1 60).1 ∧ (tableScenarioB.raise_bet 1 60).1 ≤ p.chips :=
  no_negative_stacks tableScenarioB 1 60 (by decide) (by decide) (by decide)

/-- **C7**: for a seated player `p` and raise amount ≥ 0, `raiseBet` moves
exactly `min(toCall + amount, p.chips)` into the pot (and returns it), where
`toCall` is the table's bet level minus `p`'s current bet, and afterwards the
table's bet level is the maximum of its old value and `p`'s resulting
personal bet — a capped all-in raises the level only to the short stack's own
bet. -/
theorem raise_bet_spec (t : Table) (uid amount : Int) (p : Player)
    (hamt : 0 ≤ amount)
    (hfind : t.players.find? (fun r => r.user_id == uid) = some p) :
    (t.raise_bet uid amount).1 = min (t.current_bet - p.current_bet + amount) p.chips ∧
    (t.raise_bet uid amount).2.pot = t.pot + (t.raise_bet uid amount).1 ∧
    (t.raise_bet uid amount).2.current_bet =
      max t.current_bet (p.current_bet + (t.raise_bet uid amount).1) := by
  simp only [Table.raise_bet, hfind]
  refine ⟨trivial, trivial, ?_⟩
  rcases le_or_lt (p.current_bet + min (t.current_bet - p.current_bet + amount) p.chips)
    t.current_bet with hle | hlt
  · rw [if_neg (by omega), max_eq_left hle]
  · rw [if_pos (by omega), max_eq_right (le_of_lt hlt)]

/-- Witness for C7: at Scenario B's table, P1's all-in raise of 60 over a 0
bet level moves only P1's 50 chips and lifts the bet level to 50 only. -/
theorem raise_bet_spec_witness :
    (tableScenarioB.raise_bet 1 60).1 =
      min (tableScenarioB.current_bet -
        ({ user_id := 1, chips := 50 } : Player).current_bet + 60)
        ({ user_id := 1, chips := 50 } : Player).chips ∧
    (tableScenarioB.raise_bet 1 60).2.pot =
      tableScenarioB.pot + (tableScenarioB.raise_bet 1 60).1 ∧
    (tableScenarioB.raise_bet 1 60).2.current_bet =
      max tableScenarioB.current_bet
        (({ user_id := 1, chips := 50 } : Player).current_bet +
          (tableScenarioB.raise_bet 1 60).1) :=
  raise_bet_spec tableScenarioB 1 60 { user_id := 1, chips := 50 } (by decide) (by decide)

/-!
## Stage advancement (claims C8 and C10)
-/

/-- `advance_stage_if_needed` is a no-op while the betting round is open. -/
theorem advance_of_not_done (t : Table)
    (h : t.everyone_matched_or_folded = false) :
    t.advance_stage_if_needed = some t := by
  simp [Table.advance_stage_if_needed, h]

/-- With the round done and exactly one non-folded player, jump to SHOWDOWN
changing nothing else. -/
theorem advance_showdown_of_one (t : Table)
    (h : t.everyone_matched_or_folded = true)
    (h1 : (t.players.filter (fun p => !p.folded)).length = 1) :
    t.advance_stage_if_needed = some { t with stage := Stage.SHOWDOWN } := by
  simp [Table.advance_stage_if_needed, h, h1]

/-- With the round done, several (or zero) non-folded players and stage
PREFLOP, the flop is dealt: one burn, three reveals, bets reset. -/
theorem advance_deals_flop (t : Table)
    (h : t.everyone_matched_or_folded = true)
    (h1 : (t.players.filter (fun p => !p.folded)).length ≠ 1)
    (b c1 c2 c3 : Card) (rest : List Card)
    (hs : t.stage = Stage.PREFLOP) (hdeck : t.deck = b :: c1 :: c2 :: c3 :: rest) :
    t.advance_stage_if_needed = some { t with
      deck := rest
      community_cards := t.community_cards ++ [c1, c2, c3]
      stage := Stage.FLOP
      current_bet := 0
      players := resetBets t.players } := by
  simp [Table.advance_stage_if_needed, h, h1, hs, Table.deal_flop, hdeck]

/-- With the round done, several (or zero) non-folded players and stage FLOP,
the turn is dealt: one burn, one reveal, bets reset. -/
theorem advance_deals_turn (t : Table)
    (h : t.everyone_matched_or_folded = true)
    (h1 : (t.players.filter (fun p => !p.folded)).length ≠ 1)
    (b c : Card) (rest : List Card)
    (hs : t.stage = Stage.FLOP) (hdeck : t.deck = b :: c :: rest) :
    t.advance_stage_if_needed = some { t with
      deck := rest
      community_cards := t.community_cards ++ [c]
      stage := Stage.TURN
      current_bet := 0
      players := resetBets t.players } := by
  simp [Table.advance_stage_if_needed, h, h1, hs, Table.deal_turn, hdeck]

/-- With the round done, several (or zero) non-folded players and stage TURN,
the river is dealt: one burn, one reveal, bets reset. -/
theorem advance_deals_river (t : Table)
    (h : t.everyone_matched_or_folded = true)
    (h1 : (t.players.filter (fun p => !p.folded)).length ≠ 1)
    (b c : Card) (rest : List Card)
    (hs : t.stage = Stage.TURN) (hdeck : t.deck = b :: c :: rest) :
    t.advance_stage_if_needed = some { t with
      deck := rest
      community_cards := t.community_cards ++ [c]
      stage := Stage.RIVER
      current_bet := 0
      players := resetBets t.players } := by
  simp [Table.advance_stage_if_needed, h, h1, hs, Table.deal_river, hdeck]

/-- With the round done at the RIVER (and not exactly one active player),
move to SHOWDOWN without dealing. -/
theorem advance_river_to_showdown (t : Table)
    (h : t.everyone_matched_or_folded = true)
    (h1 : (t.players.filter (fun p => !p.folded)).length ≠ 1)
    (hs : t.stage = Stage.RIVER) :
    t.advance_stage_if_needed = some { t with stage := Stage.SHOWDOWN } := by
  simp [Table.advance_stage_if_needed, h, h1, hs]

/-- **C8**: `advanceStageIfNeeded` leaves the table unchanged when the
round-completion predicate is false; with the predicate true and exactly one
non-folded player it jumps to SHOWDOWN dealing nothing; otherwise it deals
the next street in order PREFLOP→FLOP→TURN→RIVER (one burn, then 3/1/1
reveals, per-player bets and bet level reset to 0), and from RIVER it moves
to SHOWDOWN. -/
theorem advance_stage_spec (t : Table) :
    (t.everyone_matched_or_folded = false → t.advance_stage_if_needed = some t) ∧
    (t.everyone_matched_or_folded = true →
      (t.players.filter (fun p => !p.folded)).length = 1 →
      t.advance_stage_if_needed = some { t with stage := Stage.SHOWDOWN }) ∧
    (t.everyone_matched_or_folded = true →
      (t.players.filter (fun p => !p.folded)).length ≠ 1 →
      ∀ (b c1 c2 c3 : Card) (rest : List Card),
        t.stage = Stage.PREFLOP → t.deck = b :: c1 :: c2 :: c3 :: rest →
        t.advance_stage_if_needed = some { t with
          deck := rest
          community_cards := t.community_cards ++ [c1, c2, c3]
          stage := Stage.FLOP
          current_bet := 0
          players := resetBets t.players }) ∧
    (t.everyone_matched_or_folded = true →
      (t.players.filter (fun p => !p.folded)).length ≠ 1 →
      ∀ (b c : Card) (rest : List Card),
        t.stage = Stage.FLOP → t.deck = b :: c :: rest →
        t.advance_stage_if_needed = some { t with
          deck := rest
          community_cards := t.community_cards ++ [c]
          stage := Stage.TURN
          current_bet := 0
          players := resetBets t.players }) ∧
    (t.everyone_matched_or_folded = true →
      (t.players.filter (fun p => !p.folded)).length ≠ 1 →
      ∀ (b c : Card) (rest : List Card),
        t.stage = Stage.TURN → t.deck = b :: c :: rest →
        t.advance_stage_if_needed = some { t with
          deck := rest
          community_cards := t.community_cards ++ [c]
          stage := Stage.RIVER
          current_bet := 0
          players := resetBets t.players }) ∧
    (t.everyone_matched_or_folded = true →
      (t.players.filter (fun p => !p.folded)).length ≠ 1 →
      t.stage = Stage.RIVER →
      t.advance_stage_if_needed = some { t with stage := Stage.SHOWDOWN }) :=
  ⟨advance_of_not_done t,
   advance_showdown_of_one t,
   fun h h1 b c1 c2 c3 rest hs hdeck => advance_deals_flop t h h1 b c1 c2 c3 rest hs hdeck,
   fun h h1 b c rest hs hdeck => advance_deals_turn t h h1 b c rest hs hdeck,
   fun h h1 b c rest hs hdeck => advance_deals_river t h h1 b c rest hs hdeck,
   advance_river_to_showdown t⟩

/-- A fixture with two active players, matched bets, at the PREFLOP. -/
def tableTwoActive : Table :=
  { players :=
      [{ user_id := 1, chips := 100, current_bet := 20 },
       { user_id := 2, chips := 100, current_bet := 20 }]
    deck := [⟨2, 0⟩, ⟨5, 1⟩, ⟨7, 2⟩, ⟨9, 3⟩]
    stage := Stage.PREFLOP
    current_bet := 20 }

/-- Witness for C8: the fixture's completed round deals the flop, burning the
first deck card and revealing the next three. -/
theorem advance_stage_spec_witness :
    tableTwoActive.everyone_matched_or_folded = true ∧
    tableTwoActive.advance_stage_if_needed = some { tableTwoActive with
      deck := []
      community_cards := tableTwoActive.community_cards ++ [⟨5, 1⟩, ⟨7, 2⟩, ⟨9, 3⟩]
      stage := Stage.FLOP
      current_bet := 0
      players := resetBets tableTwoActive.players } :=
  ⟨by decide,
   (advance_stage_spec tableTwoActive).2.2.1 (by decide) (by decide)
     ⟨2, 0⟩ ⟨5, 1⟩ ⟨7, 2⟩ ⟨9, 3⟩ [] rfl rfl⟩

/-- **C10** (implicit): with *zero* non-folded players the round-completion
predicate returns true, yet `advanceStageIfNeeded` does not jump to SHOWDOWN
— the shortcut fires only for exactly one active player — and instead falls
through and deals the next street's community cards as if play continued. -/
theorem all_folded_deals_next_street (t : Table)
    (hall : ∀ p ∈ t.players, p.folded = true) :
    t.everyone_matched_or_folded = true ∧
    t.players.filter (fun p => !p.folded) = [] ∧
    (∀ (b c1 c2 c3 : Card) (rest : List Card),
      t.stage = Stage.PREFLOP → t.deck = b :: c1 :: c2 :: c3 :: rest →
      ∃ t', t.advance_stage_if_needed = some t' ∧ t'.stage = Stage.FLOP ∧
        ¬t'.stage = Stage.SHOWDOWN ∧
        t'.community_cards = t.community_cards ++ [c1, c2, c3]) ∧
    (∀ (b c : Card) (rest : List Card),
      t.stage = Stage.FLOP → t.deck = b :: c :: rest →
      ∃ t', t.advance_stage_if_needed = some t' ∧ t'.stage = Stage.TURN ∧
        ¬t'.stage = Stage.SHOWDOWN ∧
        t'.community_cards = t.community_cards ++ [c]) ∧
    ∀ (b c : Card) (rest : List Card),
      t.stage = Stage.TURN → t.deck = b :: c :: rest →
      ∃ t', t.advance_stage_if_needed = some t' ∧ t'.stage = Stage.RIVER ∧
        ¬t'.stage = Stage.SHOWDOWN ∧
        t'.community_cards = t.community_cards ++ [c] := by
  have hfil : t.players.filter (fun p => !p.folded) = [] := by
    rw [List.filter_eq_nil_iff]
    intro p hp
    simp [hall p hp]
  have hdone : t.everyone_matched_or_folded = true := by
    simp [Table.everyone_matched_or_folded, hfil]
  have hlen : (t.players.filter (fun p => !p.folded)).length ≠ 1 := by
    rw [hfil]
    simp
  refine ⟨hdone, hfil, ?_, ?_, ?_⟩
  · intro b c1 c2 c3 rest hs hdeck
    exact ⟨_, advance_deals_flop t hdone hlen b c1 c2 c3 rest hs hdeck, rfl,
      by simp, rfl⟩
  · intro b c rest hs hdeck
    exact ⟨_, advance_deals_turn t hdone hlen b c rest hs hdeck, rfl, by simp, rfl⟩
  · intro b c rest hs hdeck
    exact ⟨_, advance_deals_river t hdone hlen b c rest hs hdeck, rfl, by simp, rfl⟩

/-- A fixture where everyone has folded, at the PREFLOP with a live deck. -/
def tableAllFolded : Table :=
  { players := [{ user_id := 1, folded := true }, { user_id := 2, folded := true }]
    deck := [⟨2, 0⟩, ⟨5, 1⟩, ⟨7, 2⟩, ⟨9, 3⟩]
    stage := Stage.PREFLOP }

/-- Witness for C10: with everyone folded the predicate holds and the flop is
still dealt — no SHOWDOWN jump. -/
theorem all_folded_deals_next_street_witness :
    tableAllFolded.everyone_matched_or_folded = true ∧
    tableAllFolded.players.filter (fun p => !p.folded) = [] ∧
    ∃ t', tableAllFolded.advance_stage_if_needed = some t' ∧ t'.stage = Stage.FLOP ∧
      ¬t'.stage = Stage.SHOWDOWN ∧
      t'.community_cards = tableAllFolded.community_cards ++ [⟨5, 1⟩, ⟨7, 2⟩, ⟨9, 3⟩] :=
  ⟨(all_folded_deals_next_street tableAllFolded (by decide)).1,
   (all_folded_deals_next_street tableAllFolded (by decide)).2.1,
   (all_folded_deals_next_street tableAllFolded (by decide)).2.2.1
     ⟨2, 0⟩ ⟨5, 1⟩ ⟨7, 2⟩ ⟨9, 3⟩ [] rfl rfl⟩

/-!
## The 7-card evaluator (claim C9)
-/

/-- `combinations n l` enumerates exactly `choose (length l) n` subsets. -/
theorem combinations_length {α : Type} :
    ∀ (n : Nat) (l : List α), (combinations n l).length = l.length.choose n := by
  intro n
  induction n with
  | zero => intro l; simp [combinations]
  | succ n ihn =>
    intro l
    induction l with
    | nil => simp [combinations]
    | cons x xs ihl =>
      simp [combinations, ihn xs, ihl, Nat.choose_succ_succ, Nat.add_comm]

/-- Every branch of the category/key cascade scores above the `(-1, ())`
sentinel. -/
theorem hand_category_key_above_sentinel (is_flush : Bool) (straight_high : Option Int)
    (ranks ranks_sorted : List Int) (ranks_by_count : List (Int × Nat))
    (counts : List Nat) :
    listLt [-1]
      (hand_category_key is_flush straight_high ranks ranks_sorted ranks_by_count counts)
        = true := by
  simp only [hand_category_key]
  repeat' split
  all_goals norm_num [listLt]

/-- Every 5-card score is above the `(-1, ())` sentinel. -/
theorem eval5_above_sentinel (cards : List Card) :
    listLt [-1] (evaluate_5card_hand cards) = true :=
  hand_category_key_above_sentinel _ _ _ _ _ _

/-- **C9**: the 7-card evaluator returns the maximum of the 5-card scores
over all `C(7,5) = 21` five-card subsets, under the lexicographic
(category, key) order with categories 9 (royal flush) down to 0 (high card);
and hole cards A♥ 2♦ on the board 3♣ 4♠ 5♥ 9♦ K♣ evaluate to category 4
(straight) with the 5-high straight key — not ace-high. -/
theorem evaluator_max_and_wheel :
    (∀ board hole : List Card, 5 ≤ (board ++ hole).length →
      (∀ c ∈ combinations 5 (board ++ hole),
        listLt (evaluate_best_hand board hole) (evaluate_5card_hand c) = false) ∧
      ∃ c ∈ combinations 5 (board ++ hole),
        evaluate_5card_hand c = evaluate_best_hand board hole) ∧
    (combinations 5
      ([⟨3, 0⟩, ⟨4, 3⟩, ⟨5, 2⟩, ⟨9, 1⟩, ⟨13, 0⟩] ++ [⟨14, 2⟩, ⟨2, 1⟩] : List Card)).length
        = 21 ∧
    evaluate_best_hand [⟨3, 0⟩, ⟨4, 3⟩, ⟨5, 2⟩, ⟨9, 1⟩, ⟨13, 0⟩] [⟨14, 2⟩, ⟨2, 1⟩] = [4, 5] := by
  refine ⟨?_, by decide, by decide⟩
  intro board hole hlen
  have hspec := foldBest_spec evaluate_5card_hand listLt listLt_trans listLt_trichot
    listLt_irrefl (combinations 5 (board ++ hole)) [-1]
  have hne : combinations 5 (board ++ hole) ≠ [] := by
    have hpos : 0 < (combinations 5 (board ++ hole)).length := by
      rw [combinations_length]
      exact Nat.choose_pos hlen
    intro hc
    rw [hc] at hpos
    cases hpos
  have hfold : evaluate_best_hand board hole =
      (combinations 5 (board ++ hole)).foldl
        (fun best x => if listLt best (evaluate_5card_hand x) then evaluate_5card_hand x
          else best) [-1] := by
    rfl
  refine ⟨fun c hc => by rw [hfold]; exact hspec.1 c hc, ?_⟩
  rcases hspec.2.1 with hbase | ⟨c, hc, hkc⟩
  · rcases List.exists_mem_of_ne_nil _ hne with ⟨c0, hc0⟩
    have h1 := hspec.1 c0 hc0
    rw [hbase] at h1
    rw [eval5_above_sentinel c0] at h1
    cases h1
  · exact ⟨c, hc, by rw [hfold, ← hkc]⟩

/-- Witness for C9's universally quantified part at the wheel cards. -/
theorem evaluator_max_and_wheel_witness :
    (∀ c ∈ combinations 5
        ([⟨3, 0⟩, ⟨4, 3⟩, ⟨5, 2⟩, ⟨9, 1⟩, ⟨13, 0⟩] ++ [⟨14, 2⟩, ⟨2, 1⟩] : List Card),
      listLt (evaluate_best_hand [⟨3, 0⟩, ⟨4, 3⟩, ⟨5, 2⟩, ⟨9, 1⟩, ⟨13, 0⟩] [⟨14, 2⟩, ⟨2, 1⟩])
        (evaluate_5card_hand c) = false) ∧
    ∃ c ∈ combinations 5
        ([⟨3, 0⟩, ⟨4, 3⟩, ⟨5, 2⟩, ⟨9, 1⟩, ⟨13, 0⟩] ++ [⟨14, 2⟩, ⟨2, 1⟩] : List Card),
      evaluate_5card_hand c =
        evaluate_best_hand [⟨3, 0⟩, ⟨4, 3⟩, ⟨5, 2⟩, ⟨9, 1⟩, ⟨13, 0⟩] [⟨14, 2⟩, ⟨2, 1⟩] :=
  evaluator_max_and_wheel.1 [⟨3, 0⟩, ⟨4, 3⟩, ⟨5, 2⟩, ⟨9, 1⟩, ⟨13, 0⟩] [⟨14, 2⟩, ⟨2, 1⟩]
    (by decide)
